import Mathlib

/-!
Shallow embedding of `src/examples/object_pool_vs_double_buffer.cpp`:
a fixed-capacity slot pool (`EventPool<N>`) with an intrusive free list
stored in a separate index array, and a two-slot double buffer
(`DoubleBuffer<N>`) whose `commit` toggles the role indices.
Machine indices are modelled as `Nat`; `uint16_t` element values are
reduced modulo 2^16 on write.
-/

namespace PoolBuf

/-- `struct Event { uint32_t ts; uint8_t type; uint8_t payload[8]; }`.
Fields are modelled as `Nat`; `Event{}` value-initialization produces
all-zero fields. -/
structure Event where
  ts : Nat
  ty : Nat
  payload : List Nat
deriving Repr, DecidableEq

/-- The value produced by `new(&storage_[idx]) Event{}`: every field
value-initialized to zero. -/
def Event.zero : Event :=
  { ts := 0, ty := 0, payload := List.replicate 8 0 }

/-- State of `EventPool<N>`: object storage, the free-list link array
`next_` (one entry per slot), and the free-list head `head_`
(sentinel value `N` means exhausted). -/
structure EventPool (N : Nat) where
  storage : List Event
  next : List Nat
  head : Nat
deriving Repr, DecidableEq

/-- `EventPool()` constructor: `next_[i] = i+1` for `i < N-1` and
`next_[N-1] = N` (which also equals `(N-1)+1`), `head_ = 0`.
The raw byte storage is not initialized by the constructor; the model
fills it with zero events, whose contents no claim depends on before
the slot is acquired. -/
def EventPool.init (N : Nat) : EventPool N :=
  { storage := List.replicate N Event.zero
    next := (List.range N).map (fun i => i + 1)
    head := 0 }

/-- `acquire()`: if `head_ == N` return `nullptr` (modelled `none`) and
leave the pool untouched; otherwise pop the head index, advance
`head_` to `next_[idx]`, placement-new a value-initialized `Event`
in the slot, and return the slot index (the handle). -/
def EventPool.acquire {N : Nat} (p : EventPool N) : Option Nat × EventPool N :=
  if p.head = N then (none, p)
  else
    let idx := p.head
    (some idx,
      { storage := p.storage.set idx Event.zero
        next := p.next
        head := p.next.getD idx 0 })

/-- `release(e)`: recover the slot index from the pointer, run the
(trivial) destructor, then push the index onto the free list:
`next_[idx] = head_; head_ = idx`. No liveness check is performed. -/
def EventPool.release {N : Nat} (p : EventPool N) (idx : Nat) : EventPool N :=
  { storage := p.storage
    next := p.next.set idx p.head
    head := idx }

/-- Overwrite the `type` field of the live object in slot `idx`
(models `e->type = 1` style writes through an acquired handle). -/
def EventPool.setType {N : Nat} (p : EventPool N) (idx v : Nat) : EventPool N :=
  { p with storage := p.storage.set idx { p.storage.getD idx Event.zero with ty := v } }

/-- Walk the free list: from `head`, follow `next` links until the
sentinel `N`, spending one unit of fuel per visited slot.  Returns the
list of visited slot indices, or `none` if the walk leaves `[0,N)`
without reaching the sentinel or runs out of fuel (a corrupt list). -/
def freeChain (next : List Nat) (N : Nat) : Nat → Nat → Option (List Nat)
  | 0, _ => none
  | fuel + 1, head =>
    if head = N then some []
    else if head < N then
      match freeChain next N fuel (next.getD head 0) with
      | some l => some (head :: l)
      | none => none
    else none

/-- One client-visible pool operation. -/
inductive PoolOp where
  | acq
  | rel (idx : Nat)
deriving Repr, DecidableEq

/-- Run a sequence of operations from pool state `p` with the ghost
list `live` of currently-live slot indices.  An exhausted `acquire`
returns `nullptr` to the caller and is a no-op on the state; a
`release` is only executed for a currently-live handle (the claim's
precondition), otherwise the run is rejected with `none`. -/
def runPool (N : Nat) (p : EventPool N) (live : List Nat) :
    List PoolOp → Option (EventPool N × List Nat)
  | [] => some (p, live)
  | PoolOp.acq :: ops =>
    match p.acquire with
    | (none, p1) => runPool N p1 live ops
    | (some idx, p1) => runPool N p1 (idx :: live) ops
  | PoolOp.rel idx :: ops =>
    if idx ∈ live then runPool N (p.release idx) (live.erase idx) ops
    else none

/-- State of `DoubleBuffer<N>`: two fixed-size `uint16_t` buffers
(value-initialized to zero by `buf_[2]{}`) and the two role indices
`writeIdx_ = 0`, `readIdx_ = 1`.  Element values are `Nat` kept below
2^16 by the write operation. -/
structure DoubleBuffer (N : Nat) where
  buf0 : List Nat
  buf1 : List Nat
  writeIdx : Nat
  readIdx : Nat
deriving Repr, DecidableEq

/-- The default-constructed `DoubleBuffer<N>`: both buffers all zero,
`writeIdx_ = 0`, `readIdx_ = 1`. -/
def DoubleBuffer.init (N : Nat) : DoubleBuffer N :=
  { buf0 := List.replicate N 0
    buf1 := List.replicate N 0
    writeIdx := 0
    readIdx := 1 }

/-- `buf_[j]`: select one of the two buffers by its slot index. -/
def DoubleBuffer.bufAt {N : Nat} (db : DoubleBuffer N) (j : Nat) : List Nat :=
  if j = 0 then db.buf0 else db.buf1

/-- `writeBuf()`: the buffer currently holding the write role. -/
def DoubleBuffer.writeBuf {N : Nat} (db : DoubleBuffer N) : List Nat :=
  db.bufAt db.writeIdx

/-- `readBuf()`: the buffer currently holding the read role. -/
def DoubleBuffer.readBuf {N : Nat} (db : DoubleBuffer N) : List Nat :=
  db.bufAt db.readIdx

/-- `writeBuf()[i] = x`: store `x` (truncated to `uint16_t`) at index
`i` of the buffer currently holding the write role. -/
def DoubleBuffer.writeAt {N : Nat} (db : DoubleBuffer N) (i x : Nat) : DoubleBuffer N :=
  if db.writeIdx = 0 then { db with buf0 := db.buf0.set i (x % 65536) }
  else { db with buf1 := db.buf1.set i (x % 65536) }

/-- `commit()`: `readIdx_ ^= 1; writeIdx_ ^= 1;`  — toggles both role
indices and touches nothing else. -/
def DoubleBuffer.commit {N : Nat} (db : DoubleBuffer N) : DoubleBuffer N :=
  { db with readIdx := db.readIdx ^^^ 1, writeIdx := db.writeIdx ^^^ 1 }

/-- `k` successive `commit()` calls. -/
def DoubleBuffer.commitIter {N : Nat} (db : DoubleBuffer N) : Nat → DoubleBuffer N
  | 0 => db
  | k + 1 => (db.commit).commitIter k

/-- The role pair is `(0,1)` or `(1,0)`. -/
def RolesOk {N : Nat} (db : DoubleBuffer N) : Prop :=
  db.writeIdx = 0 ∧ db.readIdx = 1 ∨ db.writeIdx = 1 ∧ db.readIdx = 0

/-- Results and final state of `k` successive `acquire()` calls. -/
def acquireSeq {N : Nat} (p : EventPool N) : Nat → List (Option Nat) × EventPool N
  | 0 => ([], p)
  | k + 1 =>
    let r := p.acquire
    let rest := acquireSeq r.2 k
    (r.1 :: rest.1, rest.2)

/-- Well-formedness of a pool state together with the ghost list of
live handles: the arrays have length `N`, the free-list walk from
`head` terminates at the sentinel visiting pairwise-distinct slots,
and the free slots are exactly the valid indices that are not live. -/
def PoolInv (N : Nat) (p : EventPool N) (live : List Nat) : Prop :=
  p.next.length = N ∧ p.storage.length = N ∧ live.Nodup ∧ (∀ i ∈ live, i < N) ∧
  ∃ fl, freeChain p.next N (N + 1) p.head = some fl ∧ fl.Nodup ∧
    ∀ i, i < N → (i ∈ fl ↔ i ∉ live)

/-! ### List helper lemmas -/

theorem getD_set_self {α : Type} (l : List α) (i : Nat) (a d : α) (h : i < l.length) :
    (l.set i a).getD i d = a := by
  simp [List.getD_eq_getElem?_getD, List.getElem?_set, h]

theorem getD_set_ne {α : Type} (l : List α) (i j : Nat) (a d : α) (h : i ≠ j) :
    (l.set i a).getD j d = l.getD j d := by
  simp [List.getD_eq_getElem?_getD, List.getElem?_set, h]

theorem getD_replicate_zero (n i : Nat) : (List.replicate n (0 : Nat)).getD i 0 = 0 := by
  induction n generalizing i with
  | zero => simp [List.getD]
  | succ m ih =>
    cases i with
    | zero => simp [List.replicate, List.getD]
    | succ j => simp [List.replicate, List.getD, ih j]

theorem getD_initNext (N i : Nat) (h : i < N) :
    ((List.range N).map (fun i => i + 1)).getD i 0 = i + 1 := by
  simp [List.getD_eq_getElem?_getD, List.getElem?_map, List.getElem?_range, h]

/-! ### Double-buffer theorems -/

theorem rolesOk_commit {N : Nat} (db : DoubleBuffer N) (h : RolesOk db) :
    RolesOk db.commit := by
  rcases h with ⟨hw, hr⟩ | ⟨hw, hr⟩ <;>
    simp [RolesOk, DoubleBuffer.commit, hw, hr]

theorem rolesOk_commitIter {N : Nat} (db : DoubleBuffer N) (k : Nat) (h : RolesOk db) :
    RolesOk (db.commitIter k) := by
  induction k generalizing db with
  | zero => exact h
  | succ m ih => exact ih db.commit (rolesOk_commit db h)

/-- C4: starting from write=0/read=1, one commit gives write=1/read=0,
and commit is an involution on the whole state (in particular on the
role assignment): two commits restore the original state. -/
theorem commit_involution (N : Nat) (db : DoubleBuffer N) :
    db.commit.commit = db ∧
    ((DoubleBuffer.init N).commit).writeIdx = 1 ∧
    ((DoubleBuffer.init N).commit).readIdx = 0 ∧
    (DoubleBuffer.init N).writeIdx = 0 ∧ (DoubleBuffer.init N).readIdx = 1 := by
  refine ⟨?_, ?_, ?_, rfl, rfl⟩
  · simp [DoubleBuffer.commit, Nat.xor_cancel_right]
  · simp [DoubleBuffer.init, DoubleBuffer.commit]
  · simp [DoubleBuffer.init, DoubleBuffer.commit]

/-- C5: `commit` changes only the role indices; the contents of both
element buffers are untouched. -/
theorem commit_frame (N : Nat) (db : DoubleBuffer N) :
    db.commit.buf0 = db.buf0 ∧ db.commit.buf1 = db.buf1 :=
  ⟨rfl, rfl⟩

/-- C6: in every state reachable from construction by commit calls,
the write and read indices differ and together are exactly `{0,1}`;
the initial state is write=0, read=1. -/
theorem roles_invariant (N k : Nat) :
    (((DoubleBuffer.init N).commitIter k).writeIdx = 0 ∧
        ((DoubleBuffer.init N).commitIter k).readIdx = 1 ∨
      ((DoubleBuffer.init N).commitIter k).writeIdx = 1 ∧
        ((DoubleBuffer.init N).commitIter k).readIdx = 0) ∧
    ((DoubleBuffer.init N).commitIter k).writeIdx ≠
      ((DoubleBuffer.init N).commitIter k).readIdx ∧
    (DoubleBuffer.init N).writeIdx = 0 ∧ (DoubleBuffer.init N).readIdx = 1 := by
  have h := rolesOk_commitIter (DoubleBuffer.init N) k (Or.inl ⟨rfl, rfl⟩)
  refine ⟨h, ?_, rfl, rfl⟩
  rcases h with ⟨hw, hr⟩ | ⟨hw, hr⟩ <;> rw [hw, hr] <;> decide

/-- C3: a value written through the write view at a valid index is
readable at the same index through the read view immediately after a
commit. -/
theorem write_commit_visibility (N i x : Nat) (db : DoubleBuffer N)
    (hb0 : db.buf0.length = N) (hb1 : db.buf1.length = N)
    (hrole : RolesOk db) (hi : i < N) (hx : x < 65536) :
    ((db.writeAt i x).commit).readBuf.getD i 0 = x := by
  rcases hrole with ⟨hw, hr⟩ | ⟨hw, hr⟩
  · have hv : ((db.writeAt i x).commit).readBuf = db.buf0.set i (x % 65536) := by
      simp [DoubleBuffer.writeAt, DoubleBuffer.commit, DoubleBuffer.readBuf,
        DoubleBuffer.bufAt, hw, hr]
    rw [hv, getD_set_self db.buf0 i (x % 65536) 0 (by omega)]
    exact Nat.mod_eq_of_lt hx
  · have hv : ((db.writeAt i x).commit).readBuf = db.buf1.set i (x % 65536) := by
      simp [DoubleBuffer.writeAt, DoubleBuffer.commit, DoubleBuffer.readBuf,
        DoubleBuffer.bufAt, hw, hr]
    rw [hv, getD_set_self db.buf1 i (x % 65536) 0 (by omega)]
    exact Nat.mod_eq_of_lt hx

/-- C3 witness: concrete instance with `N = 2`, `i = 1`, `x = 123`. -/
theorem write_commit_visibility_witness :
    ((DoubleBuffer.init 2).writeAt 1 123).commit.readBuf.getD 1 0 = 123 :=
  write_commit_visibility 2 1 123 (DoubleBuffer.init 2) rfl rfl
    (Or.inl ⟨rfl, rfl⟩) (by decide) (by decide)

/-- C10: at construction (before any commit), both the read view and
the write view hold zero at every valid index. -/
theorem init_buffers_zero (N i : Nat) (_h : i < N) :
    (DoubleBuffer.init N).readBuf.getD i 0 = 0 ∧
    (DoubleBuffer.init N).writeBuf.getD i 0 = 0 := by
  constructor <;>
    simp [DoubleBuffer.init, DoubleBuffer.readBuf, DoubleBuffer.writeBuf,
      DoubleBuffer.bufAt, getD_replicate_zero]

/-- C10 witness: `N = 3`, `i = 2`. -/
theorem init_buffers_zero_witness :
    2 < 3 ∧ ((DoubleBuffer.init 3).readBuf.getD 2 0 = 0 ∧
      (DoubleBuffer.init 3).writeBuf.getD 2 0 = 0) :=
  ⟨by decide, init_buffers_zero 3 2 (by decide)⟩

/-! ### Slot-pool theorems -/

theorem acquire_at (N : Nat) (p : EventPool N) (h : p.head ≠ N) :
    p.acquire = (some p.head,
      { storage := p.storage.set p.head Event.zero
        next := p.next
        head := p.next.getD p.head 0 }) := by
  simp [EventPool.acquire, h]

theorem acquireSeq_spec (N : Nat) : ∀ (k h : Nat) (p : EventPool N),
    p.next = (List.range N).map (fun i => i + 1) → p.head = h → h + k ≤ N →
    (acquireSeq p k).1 = (List.range' h k).map some ∧
    (acquireSeq p k).2.head = h + k ∧
    (acquireSeq p k).2.next = p.next := by
  intro k
  induction k with
  | zero => intro h p _ hh _; simp [acquireSeq, hh]
  | succ m ih =>
    intro h p hnext hh hle
    have hlt : h < N := by omega
    have hne : p.head ≠ N := by omega
    have hstep := acquire_at N p hne
    have hh1 : (p.acquire.2).head = h + 1 := by
      rw [hstep]; simp [hnext, hh, List.getElem?_range, hlt]
    have hn1 : (p.acquire.2).next = p.next := by rw [hstep]
    have hrec := ih (h + 1) p.acquire.2 (hn1.trans hnext) hh1 (by omega)
    refine ⟨?_, ?_, ?_⟩
    · show p.acquire.1 :: (acquireSeq p.acquire.2 m).1 = _
      rw [hrec.1, List.range'_succ h m 1, hstep, hh]
      simp
    · show (acquireSeq p.acquire.2 m).2.head = h + (m + 1)
      rw [hrec.2.1]; omega
    · show (acquireSeq p.acquire.2 m).2.next = p.next
      rw [hrec.2.2, hn1]

theorem acquireSeq_succ_last (N : Nat) : ∀ (k : Nat) (p : EventPool N),
    (acquireSeq p (k + 1)).1 = (acquireSeq p k).1 ++ [((acquireSeq p k).2.acquire).1] ∧
    (acquireSeq p (k + 1)).2 = ((acquireSeq p k).2.acquire).2 := by
  intro k
  induction k with
  | zero => intro p; simp [acquireSeq]
  | succ m ih =>
    intro p
    have h := ih p.acquire.2
    refine ⟨?_, h.2⟩
    show p.acquire.1 :: (acquireSeq p.acquire.2 (m + 1)).1 = _
    rw [h.1]
    rfl

/-- C1: from a fresh pool of capacity `N`, the first `N` acquire calls
each return a valid handle (the slot indices `0, …, N-1` in order) and
the `(N+1)`-th call returns the exhausted signal `none`. -/
theorem pool_capacity (N : Nat) :
    (∀ j, j < N → (acquireSeq (EventPool.init N) (N + 1)).1.getD j none = some j) ∧
    (acquireSeq (EventPool.init N) (N + 1)).1.getD N none = none := by
  have hspec := acquireSeq_spec N N 0 (EventPool.init N) rfl rfl (by omega)
  have hlast := acquireSeq_succ_last N N (EventPool.init N)
  have hexh : ((acquireSeq (EventPool.init N) N).2.acquire).1 = none := by
    have hh : (acquireSeq (EventPool.init N) N).2.head = N := by
      have := hspec.2.1; omega
    simp [EventPool.acquire, hh]
  have hlist : (acquireSeq (EventPool.init N) (N + 1)).1 =
      (List.range' 0 N).map some ++ [none] := by
    rw [hlast.1, hspec.1, hexh]
  constructor
  · intro j hj
    rw [hlist, List.getD_append _ _ _ _ (by simp [hj])]
    simp [List.getD_eq_getElem?_getD, List.getElem?_map, List.getElem?_range', hj]
  · rw [hlist, List.getD_append_right _ _ _ _ (by simp)]
    simp

/-- C9: when `acquire` returns the exhausted signal, the pool state
(head, free-list links and all slot contents) is completely
unchanged. -/
theorem acquire_exhausted_frame (N : Nat) (p : EventPool N)
    (h : p.acquire.1 = none) : p.acquire.2 = p := by
  by_cases hN : p.head = N
  · simp [EventPool.acquire, hN]
  · simp [EventPool.acquire, hN] at h

/-- C9 witness: the empty pool (`N = 0`) is exhausted at once and the
failing acquire leaves it unchanged. -/
theorem acquire_exhausted_frame_witness :
    (EventPool.init 0).acquire.1 = none ∧
    (EventPool.init 0).acquire.2 = EventPool.init 0 :=
  ⟨by decide, acquire_exhausted_frame 0 (EventPool.init 0) (by decide)⟩

/-- C7: with a free slot available, acquiring a handle, writing
`type = 1` through it, releasing it and acquiring again yields the
same slot index, holding a freshly value-initialized object
(`type = 0`, not `1`). -/
theorem pool_reuse (N : Nat) (p : EventPool N)
    (hs : p.storage.length = N) (_hn : p.next.length = N) (hfree : p.head < N) :
    p.acquire.1 = some p.head ∧
    ((((p.acquire.2).setType p.head 1).release p.head).acquire).1 = some p.head ∧
    (((((p.acquire.2).setType p.head 1).release p.head).acquire).2).storage.getD
        p.head Event.zero = Event.zero ∧
    Event.zero.ty = 0 := by
  have hne : p.head ≠ N := Nat.ne_of_lt hfree
  have hstep := acquire_at N p hne
  refine ⟨by rw [hstep], ?_, ?_, rfl⟩
  · simp [hstep, EventPool.setType, EventPool.release, EventPool.acquire, hne]
  · have hlen : ((((p.acquire.2).setType p.head 1).release p.head)).storage.length = N := by
      simp [hstep, EventPool.setType, EventPool.release, hs]
    have hhd : ((((p.acquire.2).setType p.head 1).release p.head)).head = p.head := by
      simp [EventPool.release]
    rw [acquire_at N _ (by rw [hhd]; exact hne)]
    rw [hhd]
    exact getD_set_self _ p.head Event.zero Event.zero (by rw [hlen]; exact hfree)

/-- C7 witness: the fresh pool of capacity 16. -/
theorem pool_reuse_witness :
    (EventPool.init 16).acquire.1 = some (EventPool.init 16).head ∧
    (((((EventPool.init 16).acquire.2).setType (EventPool.init 16).head 1).release
        (EventPool.init 16).head).acquire).1 = some (EventPool.init 16).head ∧
    ((((((EventPool.init 16).acquire.2).setType (EventPool.init 16).head 1).release
        (EventPool.init 16).head).acquire).2).storage.getD (EventPool.init 16).head
        Event.zero = Event.zero ∧
    Event.zero.ty = 0 :=
  pool_reuse 16 (EventPool.init 16) (by simp [EventPool.init])
    (by simp [EventPool.init]) (by decide)

/-! ### Release misuse (C8) -/

theorem freeChain_self_loop (next : List Nat) (N h : Nat) (hlt : h < N)
    (hself : next.getD h 0 = h) :
    ∀ fuel, freeChain next N fuel h = none := by
  intro fuel
  induction fuel with
  | zero => rfl
  | succ m ih =>
    have hne : h ≠ N := Nat.ne_of_lt hlt
    have hself' : next[h]?.getD 0 = h := by
      rw [← List.getD_eq_getElem?_getD]; exact hself
    simp [freeChain, hne, hlt, hself', ih]

/-- C8 counterexample: on a fresh pool of capacity 2, acquire slot 0,
release it, then release it again.  The second (double) release is not
rejected: it returns normally and afterwards the free-list walk from
the head cycles and never reaches the sentinel 2, while after the
first release the walk was intact (`[0, 1]`).  The head is not the
sentinel, so the corruption is silent. -/
theorem double_release_silent_corruption :
    freeChain ((((EventPool.init 2).acquire.2).release 0)).next 2 3
        ((((EventPool.init 2).acquire.2).release 0)).head = some [0, 1] ∧
    freeChain (((((EventPool.init 2).acquire.2).release 0).release 0)).next 2 3
        (((((EventPool.init 2).acquire.2).release 0).release 0)).head = none ∧
    (((((EventPool.init 2).acquire.2).release 0).release 0)).head ≠ 2 := by
  decide

/-- C8 amended: releasing a slot that is already at the head of the
free list (the double-release pattern) is not detected; `release`
relinks unconditionally, producing a self-loop so that the free-list
walk never terminates, for any amount of fuel. -/
theorem release_free_head_corrupts (N : Nat) (p : EventPool N)
    (hn : p.next.length = N) (hlt : p.head < N) :
    ∀ fuel, freeChain (p.release p.head).next N fuel (p.release p.head).head = none := by
  have hself : (p.release p.head).next.getD p.head 0 = p.head := by
    show (p.next.set p.head p.head).getD p.head 0 = p.head
    exact getD_set_self p.next p.head p.head 0 (by omega)
  intro fuel
  exact freeChain_self_loop _ N p.head hlt hself fuel

/-- C8 amended witness: capacity 2, double release of slot 0. -/
theorem release_free_head_corrupts_witness :
    freeChain (((((EventPool.init 2).acquire.2).release 0).release 0)).next 2 5
      (((((EventPool.init 2).acquire.2).release 0).release 0)).head = none :=
  release_free_head_corrupts 2 (((EventPool.init 2).acquire.2).release 0)
    (by decide) (by decide) 5

/-! ### Free-list integrity (C2) -/

theorem freeChain_succ_cases (next : List Nat) (N f h : Nat) (l : List Nat)
    (hl : freeChain next N (f + 1) h = some l) :
    (h = N ∧ l = []) ∨
    (h < N ∧ ∃ t, l = h :: t ∧ freeChain next N f (next.getD h 0) = some t) := by
  simp only [freeChain] at hl
  by_cases hN : h = N
  · rw [if_pos hN] at hl
    exact Or.inl ⟨hN, (Option.some.inj hl).symm⟩
  · rw [if_neg hN] at hl
    by_cases hlt : h < N
    · rw [if_pos hlt] at hl
      cases heq : freeChain next N f (next.getD h 0) with
      | none => rw [heq] at hl; exact absurd hl (by simp)
      | some t =>
        rw [heq] at hl
        exact Or.inr ⟨hlt, t, (Option.some.inj hl).symm, rfl⟩
    · rw [if_neg hlt] at hl
      exact absurd hl (by simp)

theorem freeChain_succ_cons (next : List Nat) (N f h : Nat) (t : List Nat)
    (hlt : h < N) (ht : freeChain next N f (next.getD h 0) = some t) :
    freeChain next N (f + 1) h = some (h :: t) := by
  have hN : h ≠ N := Nat.ne_of_lt hlt
  simp only [freeChain]
  rw [if_neg hN, if_pos hlt, ht]

theorem freeChain_length_lt (next : List Nat) (N : Nat) :
    ∀ (f h : Nat) (l : List Nat), freeChain next N f h = some l → l.length < f := by
  intro f
  induction f with
  | zero => intro h l hl; exact absurd hl (by simp [freeChain])
  | succ m ih =>
    intro h l hl
    rcases freeChain_succ_cases next N m h l hl with ⟨_, rfl⟩ | ⟨_, t, rfl, ht⟩
    · simp
    · have := ih _ _ ht
      simp
      omega

theorem freeChain_mem_lt (next : List Nat) (N : Nat) :
    ∀ (f h : Nat) (l : List Nat), freeChain next N f h = some l → ∀ i ∈ l, i < N := by
  intro f
  induction f with
  | zero => intro h l hl; exact absurd hl (by simp [freeChain])
  | succ m ih =>
    intro h l hl i hi
    rcases freeChain_succ_cases next N m h l hl with ⟨_, rfl⟩ | ⟨hlt, t, rfl, ht⟩
    · simp at hi
    · rcases List.mem_cons.mp hi with rfl | hi2
      · exact hlt
      · exact ih _ _ ht i hi2

theorem freeChain_grow (next : List Nat) (N : Nat) :
    ∀ (f h : Nat) (l : List Nat), freeChain next N f h = some l →
      ∀ f2, l.length < f2 → freeChain next N f2 h = some l := by
  intro f
  induction f with
  | zero => intro h l hl; exact absurd hl (by simp [freeChain])
  | succ m ih =>
    intro h l hl f2 hf2
    rcases freeChain_succ_cases next N m h l hl with ⟨hN, rfl⟩ | ⟨hlt, t, rfl, ht⟩
    · cases f2 with
      | zero => simp at hf2
      | succ k => simp [freeChain, hN]
    · cases f2 with
      | zero => simp at hf2
      | succ k =>
        have hlen : t.length < k := by simp at hf2; omega
        exact freeChain_succ_cons next N k h t hlt (ih _ _ ht k hlen)

theorem freeChain_set_not_mem (next : List Nat) (N idx v : Nat) :
    ∀ (f h : Nat) (l : List Nat), freeChain next N f h = some l → idx ∉ l →
      freeChain (next.set idx v) N f h = some l := by
  intro f
  induction f with
  | zero => intro h l hl; exact absurd hl (by simp [freeChain])
  | succ m ih =>
    intro h l hl hmem
    rcases freeChain_succ_cases next N m h l hl with ⟨hN, rfl⟩ | ⟨hlt, t, rfl, ht⟩
    · simp [freeChain, hN]
    · have hne : idx ≠ h := fun he => hmem (he ▸ List.mem_cons_self h t)
      have hmem2 : idx ∉ t := fun hin => hmem (List.mem_cons_of_mem h hin)
      have hrec := ih _ _ ht hmem2
      have hgd : (next.set idx v).getD h 0 = next.getD h 0 := getD_set_ne next idx h v 0 hne
      exact freeChain_succ_cons (next.set idx v) N m h t hlt (by rw [hgd]; exact hrec)

theorem nodup_bounded_length_le (l : List Nat) (N : Nat) (hd : l.Nodup)
    (hb : ∀ i ∈ l, i < N) : l.length ≤ N := by
  have hsub : l.toFinset ⊆ Finset.range N := by
    intro a ha
    exact Finset.mem_range.mpr (hb a (List.mem_toFinset.mp ha))
  have hcard := Finset.card_le_card hsub
  rw [List.toFinset_card_of_nodup hd, Finset.card_range] at hcard
  exact hcard

theorem acquire_fst_none (N : Nat) (p : EventPool N) (h : p.acquire.1 = none) :
    p.head = N := by
  by_cases hN : p.head = N
  · exact hN
  · rw [acquire_at N p hN] at h
    exact absurd h (by simp)

theorem acquire_fst_some (N : Nat) (p : EventPool N) (idx : Nat)
    (h : p.acquire.1 = some idx) : idx = p.head ∧ p.head ≠ N := by
  by_cases hN : p.head = N
  · rw [show p.acquire = (none, p) from by simp [EventPool.acquire, hN]] at h
    exact absurd h (by simp)
  · rw [acquire_at N p hN] at h
    simp at h
    exact ⟨h.symm, hN⟩

theorem poolInv_acquire_some (N : Nat) (p : EventPool N) (live : List Nat)
    (hN : p.head ≠ N) (hinv : PoolInv N p live) :
    PoolInv N p.acquire.2 (p.head :: live) := by
  obtain ⟨hn, hs, hld, hlb, fl, hfl, hfd, hcomp⟩ := hinv
  rcases freeChain_succ_cases p.next N N p.head fl hfl with ⟨h1, _⟩ | ⟨hlt, t, rfl, ht⟩
  · exact absurd h1 hN
  · have hnotlive : p.head ∉ live := (hcomp p.head hlt).mp (List.mem_cons_self _ _)
    have hchain2 : freeChain p.next N (N + 1) (p.next.getD p.head 0) = some t :=
      freeChain_grow p.next N N _ t ht (N + 1)
        (by have := freeChain_length_lt p.next N N _ t ht; omega)
    rw [acquire_at N p hN]
    refine ⟨hn, ?_, List.nodup_cons.mpr ⟨hnotlive, hld⟩, ?_, t, hchain2,
      hfd.of_cons, ?_⟩
    · show (p.storage.set p.head Event.zero).length = N
      simp [hs]
    · intro i hi
      rcases List.mem_cons.mp hi with rfl | hi2
      · exact hlt
      · exact hlb i hi2
    · intro i hiN
      by_cases hih : i = p.head
      · subst hih
        have h1 : p.head ∉ t := (List.nodup_cons.mp hfd).1
        simp [h1]
      · have hthis := hcomp i hiN
        simp only [List.mem_cons, hih, false_or] at hthis ⊢
        exact hthis

theorem poolInv_release (N : Nat) (p : EventPool N) (live : List Nat) (idx : Nat)
    (hmem : idx ∈ live) (hinv : PoolInv N p live) :
    PoolInv N (p.release idx) (live.erase idx) := by
  obtain ⟨hn, hs, hld, hlb, fl, hfl, hfd, hcomp⟩ := hinv
  have hidx : idx < N := hlb idx hmem
  have hnotfl : idx ∉ fl := fun hin => ((hcomp idx hidx).mp hin) hmem
  have hndcons : (idx :: fl).Nodup := List.nodup_cons.mpr ⟨hnotfl, hfd⟩
  have hbound : ∀ i ∈ idx :: fl, i < N := by
    intro i hi
    rcases List.mem_cons.mp hi with rfl | hi2
    · exact hidx
    · exact freeChain_mem_lt p.next N (N + 1) p.head fl hfl i hi2
  have hlen : (idx :: fl).length ≤ N := nodup_bounded_length_le _ N hndcons hbound
  have hfl2 : freeChain p.next N N p.head = some fl :=
    freeChain_grow p.next N (N + 1) p.head fl hfl N (by simp at hlen; omega)
  have hset : freeChain (p.next.set idx p.head) N N p.head = some fl :=
    freeChain_set_not_mem p.next N idx p.head N p.head fl hfl2 hnotfl
  have hgd : (p.next.set idx p.head).getD idx 0 = p.head :=
    getD_set_self p.next idx p.head 0 (by omega)
  have hchain : freeChain (p.next.set idx p.head) N (N + 1) idx = some (idx :: fl) :=
    freeChain_succ_cons _ N N idx fl hidx (by rw [hgd]; exact hset)
  refine ⟨?_, hs, hld.erase idx, ?_, idx :: fl, hchain, hndcons, ?_⟩
  · show (p.next.set idx p.head).length = N
    simp [hn]
  · intro i hi
    exact hlb i (List.mem_of_mem_erase hi)
  · intro i hiN
    by_cases hih : i = idx
    · subst hih
      have h1 : i ∈ i :: fl := List.mem_cons_self _ _
      have h2 : i ∉ live.erase i := fun hin =>
        absurd ((List.Nodup.mem_erase_iff hld).mp hin).1 (by simp)
      exact iff_of_true h1 h2
    · have hmc : i ∈ idx :: fl ↔ i ∈ fl := by simp [List.mem_cons, hih]
      have hme : i ∈ live.erase idx ↔ i ∈ live := by
        rw [List.Nodup.mem_erase_iff hld]
        simp [hih]
      rw [hmc, not_congr hme]
      exact hcomp i hiN

theorem runPool_inv (N : Nat) :
    ∀ (ops : List PoolOp) (p : EventPool N) (live : List Nat)
      (q : EventPool N) (lv : List Nat),
      PoolInv N p live → runPool N p live ops = some (q, lv) → PoolInv N q lv := by
  intro ops
  induction ops with
  | nil =>
    intro p live q lv hinv hrun
    simp [runPool] at hrun
    obtain ⟨rfl, rfl⟩ := hrun
    exact hinv
  | cons op rest ih =>
    intro p live q lv hinv hrun
    cases op with
    | acq =>
      simp only [runPool] at hrun
      split at hrun
      · rename_i p1 heq
        have hN := acquire_fst_none N p (by rw [heq])
        have hfix : p.acquire = (none, p) := by simp [EventPool.acquire, hN]
        rw [hfix] at heq
        injection heq with _ hp1
        subst hp1
        exact ih p live q lv hinv hrun
      · rename_i idx p1 heq
        have hsome := acquire_fst_some N p idx (by rw [heq])
        have hinv2 := poolInv_acquire_some N p live hsome.2 hinv
        have hp1 : p.acquire.2 = p1 := by rw [heq]
        rw [hp1, ← hsome.1] at hinv2
        exact ih p1 (idx :: live) q lv hinv2 hrun
    | rel idx =>
      simp only [runPool] at hrun
      by_cases hm : idx ∈ live
      · rw [if_pos hm] at hrun
        exact ih _ _ q lv (poolInv_release N p live idx hm hinv) hrun
      · rw [if_neg hm] at hrun
        exact absurd hrun (by simp)

theorem freeChain_init (N : Nat) : ∀ (f i : Nat), i ≤ N → N - i < f →
    freeChain ((List.range N).map (fun j => j + 1)) N f i =
      some (List.range' i (N - i)) := by
  intro f
  induction f with
  | zero => intro i h1 h2; omega
  | succ m ih =>
    intro i h1 h2
    by_cases hiN : i = N
    · subst hiN
      simp [freeChain]
    · have hlt : i < N := by omega
      have hnx : ((List.range N).map (fun j => j + 1)).getD i 0 = i + 1 :=
        getD_initNext N i hlt
      have hrec := ih (i + 1) (by omega) (by omega)
      have hstep := freeChain_succ_cons ((List.range N).map (fun j => j + 1)) N m i
        (List.range' (i + 1) (N - (i + 1))) hlt (by rw [hnx]; exact hrec)
      rw [hstep]
      have hsz : N - i = (N - (i + 1)) + 1 := by omega
      rw [hsz, List.range'_succ i (N - (i + 1)) 1]

theorem poolInv_init (N : Nat) : PoolInv N (EventPool.init N) [] := by
  refine ⟨by simp [EventPool.init], by simp [EventPool.init], List.nodup_nil,
    by simp, List.range' 0 N, ?_, ?_, ?_⟩
  · have h := freeChain_init N (N + 1) 0 (by omega) (by omega)
    simpa [EventPool.init] using h
  · have h := List.nodup_range' (s := 0) (n := N)
    exact h
  · intro i hi
    simp [List.mem_range'_1, hi]

/-- C2: after any interleaved acquire/release sequence starting from a
fresh pool, in which release is only applied to currently-live
handles, the free-list walk from head visits pairwise-distinct slots
and terminates at the sentinel `N`, and the free slots are exactly the
valid indices that are not live (disjoint and complementary). -/
theorem pool_freelist_integrity (N : Nat) (ops : List PoolOp)
    (p : EventPool N) (live : List Nat)
    (hrun : runPool N (EventPool.init N) [] ops = some (p, live)) :
    ∃ fl, freeChain p.next N (N + 1) p.head = some fl ∧ fl.Nodup ∧
      (∀ i, i < N → (i ∈ fl ↔ i ∉ live)) ∧ live.Nodup ∧ ∀ i ∈ live, i < N := by
  have h := runPool_inv N ops (EventPool.init N) [] p live (poolInv_init N) hrun
  obtain ⟨_, _, hld, hlb, fl, h1, h2, h3⟩ := h
  exact ⟨fl, h1, h2, h3, hld, hlb⟩

/-- C2 witness: capacity 2, sequence acquire, acquire, release 0,
acquire; afterwards both slots are live and the free list is empty. -/
theorem pool_freelist_integrity_witness :
    ∃ fl, freeChain ([2, 2] : List Nat) 2 3 2 = some fl ∧ fl.Nodup ∧
      (∀ i, i < 2 → (i ∈ fl ↔ i ∉ ([0, 1] : List Nat))) ∧
      ([0, 1] : List Nat).Nodup ∧ ∀ i ∈ ([0, 1] : List Nat), i < 2 :=
  pool_freelist_integrity 2 [PoolOp.acq, PoolOp.acq, PoolOp.rel 0, PoolOp.acq]
    ⟨[Event.zero, Event.zero], [2, 2], 2⟩ [0, 1] (by decide)

end PoolBuf
